import Mathlib

/-!
Verification of the slitting-groove contour synthesis of
`src/pyroll/core/grooves/slitting.py` (class `SlittingGroove`).

Coordinates are modelled as rational pairs `(z, y)`.  An elongation groove
(the external Profile Provider, class `GenericElongationGroove`) is modelled
abstractly by the data the slitting code reads from it: its ordered contour
polyline, its local-depth function, and the scalar measurements.
-/

namespace PyrollSlitting

/-- A contour point `(z, y)`: `z` lateral position, `y` depth. -/
abbrev Point : Type := ℚ × ℚ

/-- Abstract view of a `GenericElongationGroove` instance: exactly the fields
the slitting code reads (`contour_points`, `local_depth`, `usable_width`,
`depth`, `z1`, `pad_angle`, `classifiers`). -/
structure ElongationGroove where
  contour_points : List Point
  local_depth : ℚ → ℚ
  usable_width : ℚ
  depth : ℚ
  z1 : ℚ
  pad_angle : ℚ
  classifiers : Finset String

/-- State of a constructed `SlittingGroove`: the two provider instances built
in `__init__` and the separator indent. All accessors are derived from it. -/
structure SlittingGroove where
  inner : ElongationGroove
  outer : ElongationGroove
  separator_indent : ℚ

/-- Mirror a point about the `z = 0` axis (the `left_side[:, 0] *= -1` step). -/
def negZ (p : Point) : Point := (-p.1, p.2)

/-- `self.z_pass = -self._inner_groove.contour_points[0, 0]`. -/
def SlittingGroove.z_pass (g : SlittingGroove) : ℚ :=
  -(g.inner.contour_points.headI.1)

/-- `outer_right_side`: points of the outer contour with `z >= 0`, z-translated
by `z_pass` (lines 34-35 of slitting.py). -/
def SlittingGroove.outer_right_side (g : SlittingGroove) : List Point :=
  (g.outer.contour_points.filter (fun p => decide (0 ≤ p.1))).map
    (fun p => (p.1 + g.z_pass, p.2))

/-- `inner_right_side`: points of the inner contour with `z <= 0`, z-translated
by `z_pass` and y-translated by `separator_indent` (lines 36-38). -/
def SlittingGroove.inner_right_side (g : SlittingGroove) : List Point :=
  (g.inner.contour_points.filter (fun p => decide (p.1 ≤ 0))).map
    (fun p => (p.1 + g.z_pass, p.2 + g.separator_indent))

/-- `right_side = np.concatenate([inner_right_side[:-1], outer_right_side])`. -/
def SlittingGroove.right_side (g : SlittingGroove) : List Point :=
  g.inner_right_side.dropLast ++ g.outer_right_side

/-- `left_side = right_side[1:].copy(); left_side[:, 0] *= -1`. -/
def SlittingGroove.left_side (g : SlittingGroove) : List Point :=
  (g.right_side.drop 1).map negZ

/-- `self._contour_points = np.concatenate([left_side[::-1], right_side])`. -/
def SlittingGroove.contour_points (g : SlittingGroove) : List Point :=
  g.left_side.reverse ++ g.right_side

/-- `np.piecewise` on a scalar: conditions are tried in order on the zero
initial value, a later true condition overwriting an earlier one
(`y[cond] = func(x[cond])` executed left to right). -/
def npPiecewiseScalar (cfs : List ((ℚ → Bool) × (ℚ → ℚ))) (x : ℚ) : ℚ :=
  cfs.foldl (fun y cf => if cf.1 x then cf.2 x else y) 0

/-- `np.piecewise` on a batch: `y = zeros_like(x)`, then for each
`(cond, func)` pair in order the masked assignment `y[cond] = func(x[cond])`. -/
def npPiecewiseBatch (cfs : List ((ℚ → Bool) × (ℚ → ℚ))) (xs : List ℚ) : List ℚ :=
  cfs.foldl
    (fun ys cf => List.zipWith (fun x y => if cf.1 x then cf.2 x else y) xs ys)
    (xs.map (fun _ => 0))

/-- The condition/function list passed to `np.piecewise` in `local_depth`:
`[np.abs(z) < self.z_pass, np.abs(z) >= self.z_pass]` with
`[inner.local_depth, outer.local_depth]`. -/
def SlittingGroove.pieces (g : SlittingGroove) : List ((ℚ → Bool) × (ℚ → ℚ)) :=
  [(fun w => decide (|w| < g.z_pass), g.inner.local_depth),
   (fun w => decide (g.z_pass ≤ |w|), g.outer.local_depth)]

/-- `local_depth` on a scalar query: `z = np.abs(z)` then the piecewise
dispatch (lines 62-69). -/
def SlittingGroove.local_depth (g : SlittingGroove) (z : ℚ) : ℚ :=
  npPiecewiseScalar g.pieces |z|

/-- `local_depth` on a batch query: elementwise `np.abs` then the vectorized
piecewise dispatch. -/
def SlittingGroove.local_depth_batch (g : SlittingGroove) (zs : List ℚ) : List ℚ :=
  npPiecewiseBatch g.pieces (zs.map (fun z => |z|))

/-- `classifiers` accessor: the set stored at construction is
`set(outer.classifiers)` and the accessor returns `{"slitting"} | that`. -/
def SlittingGroove.classifiers (g : SlittingGroove) : Finset String :=
  {"slitting"} ∪ g.outer.classifiers

/-- `usable_width` accessor (lines 76-77). -/
def SlittingGroove.usable_width (g : SlittingGroove) : ℚ :=
  g.outer.usable_width + g.z_pass * 2

/-- `width` accessor. -/
def SlittingGroove.width (g : SlittingGroove) : ℚ :=
  (g.outer.z1 + g.z_pass) * 2

/-- `depth` accessor. -/
def SlittingGroove.depth (g : SlittingGroove) : ℚ :=
  g.outer.depth

/-! ### Spec-side definitions (written from the specification's words, for the
refinement claim about the contour construction) -/

/-- Spec wording: "rightSide = (points of InnerGroove's contour with z <= 0,
each translated by +z_pass in z and +separatorIndent in y, with the last point
dropped) followed by (points of OuterGroove's contour with z >= 0, each
translated by +z_pass in z)". -/
def specRightSide (inner outer : ElongationGroove) (si : ℚ) : List Point :=
  let zp : ℚ := -(inner.contour_points.headI.1)
  ((inner.contour_points.filter (fun p => decide (p.1 ≤ 0))).map
      (fun p => (p.1 + zp, p.2 + si))).dropLast ++
    (outer.contour_points.filter (fun p => decide (0 ≤ p.1))).map
      (fun p => (p.1 + zp, p.2))

/-- Spec wording: "leftSide = rightSide with its first point dropped and every
z negated". -/
def specLeftSide (inner outer : ElongationGroove) (si : ℚ) : List Point :=
  ((specRightSide inner outer si).drop 1).map (fun p => (-p.1, p.2))

/-- Spec wording: "the final contour equals reverse(leftSide) concatenated
with rightSide". -/
def specContour (inner outer : ElongationGroove) (si : ℚ) : List Point :=
  (specLeftSide inner outer si).reverse ++ specRightSide inner outer si

/-- Symmetry of a polyline about `z = 0`: the point at index `i` equals the
point at index `n - 1 - i` with its z-coordinate negated and its y-coordinate
unchanged. -/
def symmAboutZero (l : List Point) : Prop :=
  ∀ i, i < l.length →
    (l.getD i (0, 0)).1 = -((l.getD (l.length - 1 - i) (0, 0)).1) ∧
    (l.getD i (0, 0)).2 = (l.getD (l.length - 1 - i) (0, 0)).2

/-- A polyline ordered by strictly increasing z-coordinate — the Profile
Provider's documented ordering invariant on its contour output. -/
abbrev StrictlyIncreasingZ (l : List Point) : Prop :=
  l.Pairwise (fun p q => p.1 < q.1)

/-- `symmAboutZero` is decidable, so it can be evaluated on concrete contours. -/
instance symmAboutZero.instDecidable (l : List Point) :
    Decidable (symmAboutZero l) := by
  unfold symmAboutZero
  infer_instance

/-! ### Concrete grooves used by the witnesses and counterexamples -/

/-- A small concrete inner groove: contour from its leftmost point `(-1, 2)`
up to the center `(0, 3)`; both points have `z ≤ 0`. -/
def innerEx : ElongationGroove :=
  ⟨[(-1, 2), (0, 3)], fun z => z + 1, 4, 3, 2, 0, {"round"}⟩

/-- A small concrete outer groove with symmetric three-point contour. -/
def outerEx : ElongationGroove :=
  ⟨[(-2, 0), (0, 4), (2, 0)], fun z => 2 * z, 6, 4, 3, 1, {"round", "flat"}⟩

/-- A concrete constructed slitting groove (`z_pass = 1`). -/
def grooveEx : SlittingGroove := ⟨innerEx, outerEx, 1⟩

/-- An inner groove whose contour starts at its leftmost point (z = -1 ≤ 0)
but carries only one point with `z ≤ 0`, so the drop-last step consumes the
would-be apex. -/
def innerCex : ElongationGroove :=
  ⟨[(-1, 0), (5, 3)], fun z => z, 0, 0, 0, 0, ∅⟩

/-- An outer groove with a single contour point at `z = 2`. -/
def outerCex : ElongationGroove :=
  ⟨[(2, 7)], fun z => z, 0, 0, 0, 0, ∅⟩

/-- The degenerate slitting groove built from `innerCex` and `outerCex`: its
composite contour is the single point `(3, 7)`, which is not symmetric. -/
def grooveCex : SlittingGroove := ⟨innerCex, outerCex, 0⟩

/-- An inner groove whose contour consists of one repeated point on the axis:
all points have `z ≤ 0`, so the seam point gets duplicated. -/
def innerDup : ElongationGroove :=
  ⟨[(0, 5), (0, 5)], fun z => z, 0, 0, 0, 0, ∅⟩

/-- An outer groove with the single contour point `(0, 5)`. -/
def outerDup : ElongationGroove :=
  ⟨[(0, 5)], fun z => z, 0, 0, 0, 0, ∅⟩

/-- The degenerate slitting groove built from `innerDup` and `outerDup`: the
seam point `(0, 5)` appears three times in the composite contour. -/
def grooveDup : SlittingGroove := ⟨innerDup, outerDup, 0⟩

/-! ### Construction as a fallible process (for the error-propagation claim)

The constructor of the external Profile Provider
(`GenericElongationGroove.__init__`) is not part of this file's source. -/

/-- The keyword parameters the slitting constructor overrides when building
the inner groove (`pad=0, rel_pad=0, pad_angle=0`). -/
structure TemplateKwargs where
  pad : ℚ
  rel_pad : ℚ
  pad_angle : ℚ
deriving DecidableEq

/-- Modelled from the spec: the external Profile Provider constructor
(`template_groove_type`, absent from the source) may reject an invalid
parameter combination; it is a fallible function from the depth and the
padding parameters to a groove. `SlittingGroove.__init__` calls it twice —
outer with the caller's parameters plus `depth`, inner with padding forced to
zero and depth reduced by `separator_indent` — performing no validation and
no exception handling of its own, so a rejection aborts construction. -/
def constructSlittingGroove
    (tmpl : ℚ → TemplateKwargs → Except String ElongationGroove)
    (depth separator_indent : ℚ) (kwargs : TemplateKwargs) :
    Except String SlittingGroove := do
  let outerG ← tmpl depth kwargs
  let innerG ← tmpl (depth - separator_indent) ⟨0, 0, 0⟩
  pure ⟨innerG, outerG, separator_indent⟩

/-- A fixed groove value returned by the example template below. -/
def grooveOf (depth : ℚ) (kwargs : TemplateKwargs) : ElongationGroove :=
  ⟨[(-1, 0), (0, 0)], fun z => z, 2, depth, 1, kwargs.pad_angle, ∅⟩

/-- Modelled from the spec: an example provider constructor that rejects a
non-positive depth, as expected when `separator_indent ≥ depth`. -/
def tmplEx (depth : ℚ) (kwargs : TemplateKwargs) :
    Except String ElongationGroove :=
  if 0 < depth then .ok (grooveOf depth kwargs)
  else .error "depth must be positive"

/-! ### The summary-attributes mapping (`__attrs__`) -/

/-- The three kinds of values taken by the six summary keys. -/
inductive AttrValue where
  | num (q : ℚ)
  | strs (s : Finset String)
  | line (l : List Point)
deriving DecidableEq

/-- Python truthiness of an attribute value: a number is truthy iff nonzero,
a set iff nonempty, a line iff it has points. -/
def AttrValue.truthy : AttrValue → Bool
  | .num q => decide (q ≠ 0)
  | .strs s => decide (s ≠ ∅)
  | .line l => decide (l ≠ [])

/-- The six keys of `__attrs__`, in source order. -/
def attrsKeys : List String :=
  ["depth", "separator_indent", "usable_width", "classifiers", "pad_angle",
   "contour_line"]

/-- Modelled from the spec: `getattr(self, n)` for the six summary keys.
`depth`, `usable_width`, `classifiers` and `contour_line` resolve to this
class's own accessors; `separator_indent` and `pad_angle` resolve through the
external groove base classes absent from the source, modelled per the spec's
table as the stored indent and the outer groove's pad angle. -/
def SlittingGroove.getattr (g : SlittingGroove) (n : String) : AttrValue :=
  if n = "depth" then .num g.depth
  else if n = "separator_indent" then .num g.separator_indent
  else if n = "usable_width" then .num g.usable_width
  else if n = "classifiers" then .strs g.classifiers
  else if n = "pad_angle" then .num g.outer.pad_angle
  else .line g.contour_points

/-- `__attrs__`: the dict comprehension
`{n: v for n in [...] if (v := getattr(self, n))}` — the six keys in order,
each mapped to its current value, keeping only truthy values. -/
def SlittingGroove.attrs (g : SlittingGroove) : List (String × AttrValue) :=
  (attrsKeys.map (fun n => (n, g.getattr n))).filter
    (fun kv => AttrValue.truthy kv.2)

/-! ### Helper lemmas -/

theorem negZ_negZ (p : Point) : negZ (negZ p) = p := by
  simp [negZ]

theorem negZ_of_fst_eq_zero {p : Point} (h : p.1 = 0) : negZ p = p := by
  cases p with
  | mk a b => simp_all [negZ]

/-- The mirror construction `reverse((rs.drop 1).map negZ) ++ rs` maps to its
own reverse under `negZ`, provided the head of `rs` sits on the axis. -/
theorem mirror_map_negZ (rs : List Point) (h : rs ≠ [] → (rs.headI).1 = 0) :
    (((rs.drop 1).map negZ).reverse ++ rs).map negZ =
      (((rs.drop 1).map negZ).reverse ++ rs).reverse := by
  cases rs with
  | nil => simp
  | cons p t =>
      have hp : negZ p = p := negZ_of_fst_eq_zero (h (by simp))
      simp only [List.drop_one, List.tail_cons, List.map_append, List.map_reverse,
        List.map_cons, List.map_map, List.reverse_append, List.reverse_reverse,
        List.reverse_cons]
      have hmm : t.map (negZ ∘ negZ) = t := by
        simp [Function.comp_def, negZ_negZ]
      rw [hmm, hp]
      simp [List.append_assoc]

/-- Indexwise symmetry follows from the `map negZ = reverse` characterization. -/
theorem symmAboutZero_of_map_eq_reverse (l : List Point)
    (h : l.map negZ = l.reverse) : symmAboutZero l := by
  intro i hi
  have hlen : l.length - 1 - i < l.length := by omega
  have hrevlen : i < l.reverse.length := by simpa using hi
  have hA : l.reverse[i] = l[l.length - 1 - i] := by
    rw [List.getElem_reverse]
  have hO : l.reverse[i]? = some (negZ l[i]) := by
    rw [← h, List.getElem?_map, List.getElem?_eq_getElem hi]
    simp
  have hO2 : l.reverse[i]? = some (l.reverse[i]) :=
    List.getElem?_eq_getElem hrevlen
  have hval : l.reverse[i] = negZ l[i] := by
    rw [hO2] at hO
    exact Option.some.inj hO
  have key : l.getD (l.length - 1 - i) (0, 0) = negZ (l.getD i (0, 0)) := by
    rw [List.getD_eq_getElem l (0, 0) hlen, List.getD_eq_getElem l (0, 0) hi,
      ← hA, hval]
  rw [key]
  cases hl : l.getD i (0, 0) with
  | mk a b => constructor <;> simp [negZ]

/-- The masked-assignment fold of `np.piecewise` over a batch is the map of
the scalar fold, for any initial elementwise state. -/
theorem npPiecewiseBatch_foldl_map (cfs : List ((ℚ → Bool) × (ℚ → ℚ)))
    (xs : List ℚ) (h : ℚ → ℚ) :
    cfs.foldl
        (fun ys cf => List.zipWith (fun x y => if cf.1 x then cf.2 x else y) xs ys)
        (xs.map h) =
      xs.map (fun x => cfs.foldl (fun y cf => if cf.1 x then cf.2 x else y) (h x)) := by
  induction cfs generalizing h with
  | nil => simp
  | cons cf cfs ih =>
      simp only [List.foldl_cons]
      have hstep :
          List.zipWith (fun x y => if cf.1 x then cf.2 x else y) xs (xs.map h) =
            xs.map (fun x => if cf.1 x then cf.2 x else h x) := by
        rw [List.zipWith_map_right, List.zipWith_same]
      rw [hstep, ih]

/-- `npPiecewiseBatch` applies `npPiecewiseScalar` elementwise. -/
theorem npPiecewiseBatch_eq_map (cfs : List ((ℚ → Bool) × (ℚ → ℚ)))
    (xs : List ℚ) :
    npPiecewiseBatch cfs xs = xs.map (npPiecewiseScalar cfs) := by
  unfold npPiecewiseBatch npPiecewiseScalar
  have h0 : xs.map (fun _ => (0 : ℚ)) = xs.map (fun x => (fun _ => (0 : ℚ)) x) := rfl
  rw [h0, npPiecewiseBatch_foldl_map]

/-- Unfolding of the scalar piecewise dispatch of `local_depth`. -/
theorem local_depth_eq_ite (g : SlittingGroove) (z : ℚ) :
    g.local_depth z =
      if |z| < g.z_pass then g.inner.local_depth |z| else g.outer.local_depth |z| := by
  unfold SlittingGroove.local_depth npPiecewiseScalar SlittingGroove.pieces
  simp only [List.foldl_cons, List.foldl_nil, abs_abs]
  rcases lt_or_le |z| g.z_pass with hlt | hge
  · simp [hlt, not_le.mpr hlt]
  · simp [hge, not_lt.mpr hge]

/-! ### Claim theorems -/

/-- C1: the composite contour is built exactly as the spec describes: the
right side is the translated `z ≤ 0` part of the inner contour with its last
point dropped followed by the translated `z ≥ 0` part of the outer contour,
the left side is the right side with its first point dropped and `z` negated,
the final contour is `reverse(leftSide) ++ rightSide`, `z_pass` is the negated
first inner z-coordinate; the extraction is an order-preserving subsequence
of the translated provider contours, for every pair of provider contours. -/
theorem contour_construction_spec (g : SlittingGroove) :
    g.contour_points = specContour g.inner g.outer g.separator_indent ∧
    List.Sublist g.inner_right_side (g.inner.contour_points.map
      (fun p => (p.1 + g.z_pass, p.2 + g.separator_indent))) ∧
    List.Sublist g.outer_right_side (g.outer.contour_points.map
      (fun p => (p.1 + g.z_pass, p.2))) := by
  refine ⟨rfl, ?_, ?_⟩
  · exact List.Sublist.map _ (List.filter_sublist _)
  · exact List.Sublist.map _ (List.filter_sublist _)

/-- C2: for every query `z`, with `az = |z|`, `local_depth` delegates to the
inner groove when `az < z_pass` and to the outer groove when `az ≥ z_pass`;
in particular the boundary `az = z_pass` uses the outer branch. -/
theorem local_depth_partition (g : SlittingGroove) (z : ℚ) :
    (|z| < g.z_pass → g.local_depth z = g.inner.local_depth |z|) ∧
    (g.z_pass ≤ |z| → g.local_depth z = g.outer.local_depth |z|) ∧
    (|z| = g.z_pass → g.local_depth z = g.outer.local_depth g.z_pass) := by
  refine ⟨fun h => ?_, fun h => ?_, fun h => ?_⟩
  · rw [local_depth_eq_ite, if_pos h]
  · rw [local_depth_eq_ite, if_neg (not_lt.mpr h)]
  · rw [local_depth_eq_ite, if_neg (by rw [h]; exact lt_irrefl _), h]

/-- Witness for C2 on the concrete groove (`z_pass = 1`): an interior query
uses the inner depth function, the boundary query `z = z_pass` the outer. -/
theorem local_depth_partition_witness :
    grooveEx.local_depth 0 = grooveEx.inner.local_depth |(0 : ℚ)| ∧
    grooveEx.local_depth 1 = grooveEx.outer.local_depth |(1 : ℚ)| ∧
    grooveEx.local_depth 1 = grooveEx.outer.local_depth grooveEx.z_pass :=
  ⟨(local_depth_partition grooveEx 0).1 (by decide),
   (local_depth_partition grooveEx 1).2.1 (by decide),
   (local_depth_partition grooveEx 1).2.2 (by decide)⟩

/-- When the inner contour's first point has `z ≤ 0` and at least two inner
contour points have `z ≤ 0`, the right side starts with the apex at `z = 0`. -/
theorem right_side_head_apex (g : SlittingGroove)
    (h1 : (g.inner.contour_points.headI).1 ≤ 0)
    (h2 : 2 ≤ (g.inner.contour_points.filter (fun p => decide (p.1 ≤ 0))).length) :
    g.right_side ≠ [] ∧ g.right_side.headI.1 = 0 := by
  unfold SlittingGroove.right_side SlittingGroove.inner_right_side
    SlittingGroove.z_pass
  cases hc : g.inner.contour_points with
  | nil => rw [hc] at h2; simp at h2
  | cons a t =>
      rw [hc] at h1 h2
      simp only [List.headI] at h1
      rw [List.filter_cons_of_pos (by simpa using h1)] at h2
      rw [List.filter_cons_of_pos (by simpa using h1)]
      cases ht : (t.filter (fun p => decide (p.1 ≤ 0))) with
      | nil => rw [ht] at h2; simp at h2
      | cons b u =>
          simp only [List.map_cons, List.headI]
          rw [List.dropLast_cons_of_ne_nil (by simp)]
          constructor
          · simp
          · simp

/-- C3 (amended): for every constructed instance whose inner contour starts
at its leftmost point with z-coordinate `≤ 0` AND whose inner contour has at
least two points with `z ≤ 0`, the composite contour is exactly symmetric
about `z = 0`: the point at index `i` equals the point at index `n - 1 - i`
with its z negated and the same y, and the middle point has `z = 0`. -/
theorem contour_symmetric (g : SlittingGroove)
    (_h0 : ∀ p ∈ g.inner.contour_points, (g.inner.contour_points.headI).1 ≤ p.1)
    (h1 : (g.inner.contour_points.headI).1 ≤ 0)
    (h2 : 2 ≤ (g.inner.contour_points.filter (fun p => decide (p.1 ≤ 0))).length) :
    symmAboutZero g.contour_points ∧
    (g.contour_points.getD ((g.contour_points.length - 1) / 2) (0, 0)).1 = 0 := by
  obtain ⟨hne, hhead⟩ := right_side_head_apex g h1 h2
  have hmap := mirror_map_negZ g.right_side (fun _ => hhead)
  constructor
  · exact symmAboutZero_of_map_eq_reverse _ hmap
  · have hlenL : g.left_side.length = g.right_side.length - 1 := by
      unfold SlittingGroove.left_side
      simp
    have hlenC : g.contour_points.length = g.left_side.length + g.right_side.length := by
      unfold SlittingGroove.contour_points
      simp
    have hrs1 : 1 ≤ g.right_side.length := by
      cases hx : g.right_side with
      | nil => exact absurd hx hne
      | cons r s => simp
    have hmid : (g.contour_points.length - 1) / 2 = g.left_side.length := by
      omega
    rw [hmid]
    show ((g.left_side.reverse ++ g.right_side).getD g.left_side.length (0, 0)).1 = 0
    rw [List.getD_append_right _ _ _ _ (by simp)]
    simp only [List.length_reverse, Nat.sub_self]
    cases hx : g.right_side with
    | nil => exact absurd hx hne
    | cons r s =>
        rw [hx] at hhead
        simpa using hhead

section ConcreteEvaluation

set_option allowUnsafeReducibility true

attribute [local semireducible] Rat.add Rat.sub Rat.neg Rat.mul

/-- Counterexample to C3 as stated: `grooveCex`'s inner contour starts at its
leftmost point `(-1, 0)` with `z ≤ 0`, yet the composite contour `[(3, 7)]`
is not symmetric about `z = 0`. -/
theorem contour_symmetric_cex :
    (∀ p ∈ grooveCex.inner.contour_points,
      (grooveCex.inner.contour_points.headI).1 ≤ p.1) ∧
    (grooveCex.inner.contour_points.headI).1 ≤ 0 ∧
    ¬ symmAboutZero grooveCex.contour_points := by decide

/-- Witness for C3 on the concrete groove: its inner contour starts at its
leftmost point `(-1, 2)` and both inner points have `z ≤ 0`, so the composite
contour `[(-3, 0), (-1, 4), (0, 3), (1, 4), (3, 0)]` is symmetric. -/
theorem contour_symmetric_witness :
    symmAboutZero grooveEx.contour_points ∧
    (grooveEx.contour_points.getD
      ((grooveEx.contour_points.length - 1) / 2) (0, 0)).1 = 0 :=
  contour_symmetric grooveEx (by decide) (by decide) (by decide)

end ConcreteEvaluation

/-- C4: `usable_width = outer.usable_width + 2 * z_pass`, and `z_pass ≥ 0`
whenever the inner contour's first point has z-coordinate `≤ 0`. -/
theorem usable_width_relation (g : SlittingGroove) :
    g.usable_width = g.outer.usable_width + 2 * g.z_pass ∧
    (∀ p, g.inner.contour_points.head? = some p → p.1 ≤ 0 → 0 ≤ g.z_pass) := by
  constructor
  · unfold SlittingGroove.usable_width
    ring
  · intro p hp hle
    unfold SlittingGroove.z_pass
    have hhead : g.inner.contour_points.headI = p := by
      cases h : g.inner.contour_points with
      | nil => rw [h] at hp; simp at hp
      | cons a t =>
          rw [h] at hp
          simp only [List.head?_cons, Option.some.injEq] at hp
          simpa using hp
    rw [hhead]
    linarith

/-- Witness for C4 on the concrete groove: the width relation holds and
`z_pass = 1 ≥ 0` since the inner contour starts at `(-1, 2)`. -/
theorem usable_width_relation_witness :
    grooveEx.usable_width = grooveEx.outer.usable_width + 2 * grooveEx.z_pass ∧
    0 ≤ grooveEx.z_pass :=
  ⟨(usable_width_relation grooveEx).1,
   (usable_width_relation grooveEx).2 (-1, 2) (by decide) (by decide)⟩

/-- C5: the batch form of `local_depth` equals the elementwise map of the
scalar form, with equal length and preserved order; the scalar form takes one
rational to one rational by its type. -/
theorem local_depth_vectorized (g : SlittingGroove) (zs : List ℚ) :
    g.local_depth_batch zs = zs.map g.local_depth ∧
    (g.local_depth_batch zs).length = zs.length := by
  have h : g.local_depth_batch zs = zs.map g.local_depth := by
    unfold SlittingGroove.local_depth_batch
    rw [npPiecewiseBatch_eq_map, List.map_map]
    rfl
  exact ⟨h, by rw [h]; simp⟩

/-- The translated inner right side inherits the strict z-ordering of the
inner contour. -/
theorem inner_right_side_increasing (g : SlittingGroove)
    (hinc : StrictlyIncreasingZ g.inner.contour_points) :
    StrictlyIncreasingZ g.inner_right_side := by
  unfold SlittingGroove.inner_right_side
  exact List.Pairwise.map _ (fun a b h => by simpa using h)
    (List.Pairwise.filter _ hinc)

/-- The translated outer right side inherits the strict z-ordering of the
outer contour. -/
theorem outer_right_side_increasing (g : SlittingGroove)
    (hinc : StrictlyIncreasingZ g.outer.contour_points) :
    StrictlyIncreasingZ g.outer_right_side := by
  unfold SlittingGroove.outer_right_side
  exact List.Pairwise.map _ (fun a b h => by simpa using h)
    (List.Pairwise.filter _ hinc)

/-- Every point of the right side has `z ≥ 0` when the inner contour is
strictly increasing in z and contributes at least one point. -/
theorem right_side_nonneg (g : SlittingGroove)
    (hinc : StrictlyIncreasingZ g.inner.contour_points)
    (hne : g.inner_right_side ≠ []) :
    ∀ r ∈ g.right_side, 0 ≤ r.1 := by
  cases hc : g.inner.contour_points with
  | nil =>
      exfalso
      apply hne
      unfold SlittingGroove.inner_right_side
      rw [hc]
      rfl
  | cons c rest =>
      rw [hc] at hinc
      have hcmin : ∀ p ∈ g.inner.contour_points, c.1 ≤ p.1 := by
        intro p hp
        rw [hc] at hp
        rcases List.mem_cons.mp hp with h | h
        · rw [h]
        · exact le_of_lt ((List.pairwise_cons.mp hinc).1 p h)
      have hcle : c.1 ≤ 0 := by
        by_contra hpos
        push_neg at hpos
        apply hne
        unfold SlittingGroove.inner_right_side
        rw [hc]
        have hnil : (c :: rest).filter (fun p => decide (p.1 ≤ 0)) = [] := by
          rw [List.filter_eq_nil_iff]
          intro a ha
          have hca : c.1 ≤ a.1 := hcmin a (by rw [hc]; exact ha)
          simp only [decide_eq_true_eq]
          intro hle
          linarith
        rw [hnil]
        rfl
      have hzp : g.z_pass = -c.1 := by
        unfold SlittingGroove.z_pass
        rw [hc]
        simp
      intro r hr
      unfold SlittingGroove.right_side at hr
      rcases List.mem_append.mp hr with h | h
      · have hrA : r ∈ g.inner_right_side := List.dropLast_subset _ h
        unfold SlittingGroove.inner_right_side at hrA
        obtain ⟨p, hp, rfl⟩ := List.mem_map.mp hrA
        have hpin : p ∈ g.inner.contour_points := List.filter_subset' _ hp
        have hmin := hcmin p hpin
        show 0 ≤ p.1 + g.z_pass
        rw [hzp]
        linarith
      · unfold SlittingGroove.outer_right_side at h
        obtain ⟨p, hp, rfl⟩ := List.mem_map.mp h
        have hp0 : 0 ≤ p.1 := by simpa using List.of_mem_filter hp
        show 0 ≤ p.1 + g.z_pass
        rw [hzp]
        linarith

/-- C6 (amended): for every constructed instance whose two provider contours
are strictly increasing in z (the provider's documented ordering invariant),
if the last point of the translated inner right side coincides with the first
point of the translated outer right side, that junction point appears exactly
once in the final composite contour. -/
theorem seam_point_unique (g : SlittingGroove) (q : Point)
    (hinc₁ : StrictlyIncreasingZ g.inner.contour_points)
    (hinc₂ : StrictlyIncreasingZ g.outer.contour_points)
    (hlast : g.inner_right_side.getLast? = some q)
    (hhead : g.outer_right_side.head? = some q) :
    g.contour_points.count q = 1 := by
  have hAne : g.inner_right_side ≠ [] := by
    intro h
    rw [h] at hlast
    simp at hlast
  have hA : g.inner_right_side.dropLast ++ [q] = g.inner_right_side :=
    List.dropLast_append_getLast? q (by simpa using hlast)
  obtain ⟨s, hB⟩ : ∃ s, g.outer_right_side = q :: s := by
    cases hx : g.outer_right_side with
    | nil => rw [hx] at hhead; simp at hhead
    | cons b u =>
        rw [hx] at hhead
        simp only [List.head?_cons, Option.some.injEq] at hhead
        exact ⟨u, by rw [hhead]⟩
  have hApair : StrictlyIncreasingZ g.inner_right_side :=
    inner_right_side_increasing g hinc₁
  have hBpair : StrictlyIncreasingZ g.outer_right_side :=
    outer_right_side_increasing g hinc₂
  have hqA : q ∉ g.inner_right_side.dropLast := by
    intro hmem
    have hAp := hApair
    rw [← hA] at hAp
    exact lt_irrefl q.1 ((List.pairwise_append.mp hAp).2.2 q hmem q (by simp))
  have hqs : q ∉ s := by
    intro hmem
    have hBp := hBpair
    rw [hB] at hBp
    exact lt_irrefl q.1 ((List.pairwise_cons.mp hBp).1 q hmem)
  have hcntR : g.right_side.count q = 1 := by
    unfold SlittingGroove.right_side
    rw [List.count_append, hB, List.count_eq_zero_of_not_mem hqA]
    simp [List.count_eq_zero_of_not_mem hqs]
  have hnonneg := right_side_nonneg g hinc₁ hAne
  have hqR : q ∈ g.right_side := by
    unfold SlittingGroove.right_side
    rw [hB]
    exact List.mem_append_right _ (by simp)
  have hq0 : 0 ≤ q.1 := hnonneg q hqR
  have hqL : q ∉ g.left_side := by
    intro hmem
    unfold SlittingGroove.left_side at hmem
    obtain ⟨p, hp, hpq⟩ := List.mem_map.mp hmem
    have hpR : p ∈ g.right_side := List.drop_subset _ _ hp
    have hp0 : 0 ≤ p.1 := hnonneg p hpR
    have hq1 : q.1 = -p.1 := by rw [← hpq]; rfl
    have hq00 : q.1 = 0 := le_antisymm (by rw [hq1]; linarith) hq0
    have hp00 : p.1 = 0 := by
      rw [hq1] at hq00
      linarith
    have hpq2 : p = q := by
      obtain ⟨p1, p2⟩ := p
      obtain ⟨q1, q2⟩ := q
      simp only [negZ, Prod.mk.injEq] at hpq
      simp only [Prod.mk.injEq]
      simp only [] at hp00
      exact ⟨by rw [← hpq.1, hp00]; ring, hpq.2⟩
    rw [hpq2] at hp
    cases hd : g.inner_right_side.dropLast with
    | nil =>
        have hrs : g.right_side = q :: s := by
          unfold SlittingGroove.right_side
          rw [hd, hB]
          rfl
        rw [hrs] at hp
        simp only [List.drop_one, List.tail_cons] at hp
        exact hqs hp
    | cons d ds =>
        have hAp := hApair
        rw [← hA, hd] at hAp
        have hdq : d.1 < q.1 :=
          (List.pairwise_append.mp hAp).2.2 d (by simp) q (by simp)
        have hdR : d ∈ g.right_side := by
          unfold SlittingGroove.right_side
          rw [hd]
          simp
        have hd0 := hnonneg d hdR
        rw [hq00] at hdq
        linarith
  unfold SlittingGroove.contour_points
  rw [List.count_append, List.count_reverse,
    List.count_eq_zero_of_not_mem hqL, hcntR]

section SeamEvaluation

set_option allowUnsafeReducibility true

attribute [local semireducible] Rat.add Rat.sub Rat.neg Rat.mul

/-- Counterexample to C6 as stated: in `grooveDup` the translated last inner
right-side point and the translated first outer right-side point both equal
`(0, 5)`, yet that junction point appears three times in the composite
contour `[(0, 5), (0, 5), (0, 5)]`. -/
theorem seam_point_unique_cex :
    grooveDup.inner_right_side.getLast? = some ((0 : ℚ), (5 : ℚ)) ∧
    grooveDup.outer_right_side.head? = some ((0 : ℚ), (5 : ℚ)) ∧
    grooveDup.contour_points.count ((0 : ℚ), (5 : ℚ)) ≠ 1 := by decide

/-- Witness for C6 on a concrete strictly increasing instance: the seam point
`(1, 4)` of `grooveEx` appears exactly once in its composite contour. -/
theorem seam_point_unique_witness :
    grooveEx.contour_points.count ((1 : ℚ), (4 : ℚ)) = 1 :=
  seam_point_unique grooveEx (1, 4) (by decide) (by decide) (by decide) (by decide)

end SeamEvaluation

/-- C7: the classifiers accessor returns exactly `{"slitting"} ∪
outer.classifiers`; it always contains `"slitting"` and is a superset of the
outer groove's classifier set. -/
theorem classifiers_union_spec (g : SlittingGroove) :
    g.classifiers = {"slitting"} ∪ g.outer.classifiers ∧
    "slitting" ∈ g.classifiers ∧
    g.outer.classifiers ⊆ g.classifiers ∧
    ∀ c, c ∈ g.classifiers ↔ c = "slitting" ∨ c ∈ g.outer.classifiers := by
  refine ⟨rfl, ?_, ?_, fun c => ?_⟩
  · simp [SlittingGroove.classifiers]
  · exact Finset.subset_union_right
  · simp [SlittingGroove.classifiers]

/-- C8: a rejection by the provider constructor propagates to the caller
unchanged — whether it happens while building the outer groove or the inner
groove — and construction yields a groove only when both provider calls
succeed, so no partially-built instance is observable. -/
theorem construction_error_propagation
    (tmpl : ℚ → TemplateKwargs → Except String ElongationGroove)
    (depth separator_indent : ℚ) (kwargs : TemplateKwargs) :
    (∀ e, tmpl depth kwargs = .error e →
      constructSlittingGroove tmpl depth separator_indent kwargs = .error e) ∧
    (∀ og e, tmpl depth kwargs = .ok og →
      tmpl (depth - separator_indent) ⟨0, 0, 0⟩ = .error e →
      constructSlittingGroove tmpl depth separator_indent kwargs = .error e) ∧
    (∀ g, constructSlittingGroove tmpl depth separator_indent kwargs = .ok g →
      ∃ og ig, tmpl depth kwargs = .ok og ∧
        tmpl (depth - separator_indent) ⟨0, 0, 0⟩ = .ok ig ∧
        g = ⟨ig, og, separator_indent⟩) := by
  refine ⟨fun e he => ?_, fun og e hog he => ?_, fun g hg => ?_⟩
  · unfold constructSlittingGroove
    rw [he]
    rfl
  · unfold constructSlittingGroove
    rw [hog]
    show tmpl (depth - separator_indent) ⟨0, 0, 0⟩ >>= _ = _
    rw [he]
    rfl
  · unfold constructSlittingGroove at hg
    cases hog : tmpl depth kwargs with
    | error e =>
        rw [hog] at hg
        simp [Bind.bind, Except.bind] at hg
    | ok og =>
        rw [hog] at hg
        cases hig : tmpl (depth - separator_indent) ⟨0, 0, 0⟩ with
        | error e =>
            rw [hig] at hg
            simp [Bind.bind, Except.bind] at hg
        | ok ig =>
            rw [hig] at hg
            simp only [Bind.bind, Except.bind, Pure.pure, Except.pure,
              Except.ok.injEq] at hg
            exact ⟨og, ig, rfl, rfl, hg.symm⟩

section ConstructionEvaluation

set_option allowUnsafeReducibility true

attribute [local semireducible] Rat.add Rat.sub Rat.neg Rat.mul

/-- Witness for C8: with `depth = 5` and `separator_indent = 7`, the outer
groove builds but the inner depth `5 - 7` is rejected by the provider, and
that error surfaces unchanged from the construction. -/
theorem construction_error_propagation_witness :
    constructSlittingGroove tmplEx 5 7 ⟨1, 0, 0⟩ =
      .error "depth must be positive" :=
  (construction_error_propagation tmplEx 5 7 ⟨1, 0, 0⟩).2.1
    (grooveOf 5 ⟨1, 0, 0⟩) "depth must be positive" (by rfl) (by rfl)

end ConstructionEvaluation

/-- C9: the summary-attributes accessor maps exactly the six keys `depth`,
`separator_indent`, `usable_width`, `classifiers`, `pad_angle` and
`contour_line` to their current values, omitting every key whose value is
falsy, and every one of the six lookups is total. -/
theorem attrs_spec (g : SlittingGroove) :
    (∀ kv ∈ g.attrs, kv.1 ∈ attrsKeys ∧ kv.2 = g.getattr kv.1 ∧
      AttrValue.truthy kv.2 = true) ∧
    (∀ n ∈ attrsKeys, AttrValue.truthy (g.getattr n) = true →
      (n, g.getattr n) ∈ g.attrs) ∧
    (∀ n ∈ attrsKeys, AttrValue.truthy (g.getattr n) = false →
      ∀ v, (n, v) ∉ g.attrs) := by
  refine ⟨fun kv hkv => ?_, fun n hn ht => ?_, fun n hn hf v hv => ?_⟩
  · obtain ⟨hm, htr⟩ := List.mem_filter.mp hkv
    obtain ⟨m, hmk, rfl⟩ := List.mem_map.mp hm
    exact ⟨hmk, rfl, htr⟩
  · exact List.mem_filter.mpr ⟨List.mem_map.mpr ⟨n, hn, rfl⟩, ht⟩
  · obtain ⟨hm, htr⟩ := List.mem_filter.mp hv
    obtain ⟨m, hmk, heq⟩ := List.mem_map.mp hm
    obtain ⟨h1, h2⟩ := Prod.mk.injEq _ _ _ _ ▸ heq
    rw [← h2, h1] at htr
    rw [htr] at hf
    exact Bool.noConfusion hf

section AttrsEvaluation

set_option allowUnsafeReducibility true

attribute [local semireducible] Rat.add Rat.sub Rat.neg Rat.mul

/-- Witness for C9: on `grooveEx` every value is truthy, so the `depth` entry
is present; on `grooveDup` the depth is `0` (falsy), so the `depth` key is
omitted. -/
theorem attrs_spec_witness :
    ("depth", grooveEx.getattr "depth") ∈ grooveEx.attrs ∧
    ("depth", AttrValue.num 0) ∉ grooveDup.attrs :=
  ⟨(attrs_spec grooveEx).2.1 "depth" (by decide) (by decide),
   (attrs_spec grooveDup).2.2 "depth" (by decide) (by decide) (AttrValue.num 0)⟩

end AttrsEvaluation

/-- C10: `local_depth` is an even function, since the query is reduced to its
absolute value before the branch on `z_pass`. -/
theorem local_depth_even (g : SlittingGroove) (z : ℚ) :
    g.local_depth (-z) = g.local_depth z := by
  unfold SlittingGroove.local_depth
  rw [abs_neg]

end PyrollSlitting
